import Mathlib

/-!
Verification development for the rufile task runner.

The definitions below are a shallow embedding of the Rust sources:
  - src/tasks/mod.rs : the current tasks module (Recipe, BinaryTree,
    Rukefile with load/save/find/run/add), referenced by src/cli/add.rs
    through the path submodule it declares;
  - src/tasks.rs : an older, stale variant of the same module kept in the
    tree; where the two differ the tasks/mod.rs code is embedded as the
    program and the old variant is embedded separately with a Legacy name.

Rust strings compare byte-lexicographically on UTF-8; Lean String compares
lexicographically on code points, and UTF-8 encoding preserves code-point
order, so the Lean order coincides with the Rust order.
-/

namespace Rufile

/-- The Recipe struct of src/tasks/mod.rs lines 13-18: a name, a command
line, and an optional list of extra arguments. -/
structure Recipe where
  name : String
  command : String
  arguments : Option (List String)
deriving DecidableEq, Repr

/-- The Rukefile struct of src/tasks/mod.rs lines 110-113: an ordered
sequence of recipes. -/
structure Rukefile where
  tasks : List Recipe
deriving DecidableEq, Repr

/-- Rukefile::find_recipe, src/tasks/mod.rs lines 149-153: linear scan for
the first recipe whose name equals the query. -/
def Rukefile.find_recipe (rf : Rukefile) (name : String) : Option Recipe :=
  rf.tasks.find? (fun recipe => recipe.name == name)

/-- Rukefile::add_task, src/tasks/mod.rs lines 205-212: append one recipe
with the given name and command and no extra arguments. -/
def Rukefile.add_task (rf : Rukefile) (name command : String) : Rukefile :=
  { tasks := rf.tasks ++ [{ name := name, command := command, arguments := none }] }

/-- Rust str::split with a single-character separator: splits at every
occurrence of the separator, keeping empty pieces, and yields one (empty)
piece for the empty input. Mirrors recipe.command.split(char) as used in
src/tasks/mod.rs line 164. -/
def split_char (sep : Char) : List Char → List (List Char)
  | [] => [[]]
  | c :: cs =>
    if c = sep then [] :: split_char sep cs
    else
      match split_char sep cs with
      | [] => [[c]]
      | t :: ts => (c :: t) :: ts

/-- The token list of a command string: recipe.command.split(' ') of
src/tasks/mod.rs line 164. -/
def splitCommand (s : String) : List String :=
  (split_char ' ' s.data).map (fun l => String.mk l)

/-- The final argument vector composed by Rukefile::run_recipe,
src/tasks/mod.rs lines 164-175: the positional tokens (all tokens after
the first) are pushed onto the end of recipe.arguments when that field is
present, and form the whole vector otherwise. -/
def compose_arguments (recipe : Recipe) : List String :=
  let command := splitCommand recipe.command
  let positional_arguments := command.drop 1
  match recipe.arguments with
  | some arguments => arguments ++ positional_arguments
  | none => positional_arguments

/-- The spawn request built at src/tasks/mod.rs lines 177-179:
Command::new(command[0]).args(arguments). The token list of a command is
never empty, so the headD default is never used. -/
structure SpawnCall where
  program : String
  args : List String
deriving DecidableEq, Repr

def spawn_call (recipe : Recipe) : SpawnCall :=
  { program := (splitCommand recipe.command).headD ""
    args := compose_arguments recipe }

/-- The observable result of the child process: exit-status success flag
and the captured output streams, already decoded to text. -/
structure ChildOutput where
  success : Bool
  stdout : String
  stderr : String
deriving DecidableEq, Repr

/-- One emission of the engine: a println to standard output or an
eprintln to standard error. -/
inductive Emission where
  | out (s : String)
  | err (s : String)
deriving DecidableEq, Repr

/-- The reporting tail of Rukefile::run_recipe, src/tasks/mod.rs lines
182-190: compute is_success_and_not_quiet; when it is false print the
captured stderr; then unconditionally print the captured stdout. -/
def report_output (output : ChildOutput) (quiet : Bool) : List Emission :=
  let is_success_and_not_quiet := output.success && !quiet
  (if !is_success_and_not_quiet then [Emission.err output.stderr] else []) ++
    [Emission.out output.stdout]

/-- The reporting tail of the stale variant, src/tasks.rs lines 64-70:
print stdout when the run succeeded and quiet is false, otherwise print
stderr. -/
def report_output_legacy (output : ChildOutput) (quiet : Bool) : List Emission :=
  if output.success && !quiet then [Emission.out output.stdout]
  else [Emission.err output.stderr]

/-- Rukefile::run_recipe, src/tasks/mod.rs lines 155-191, with the child
process abstracted as a function from spawn request to observed output: a
lookup miss prints a diagnostic and returns; otherwise the recipe is run
and reported. -/
def run_recipe (exec : SpawnCall → ChildOutput) (rf : Rukefile)
    (name : String) (quiet : Bool) : List Emission :=
  match rf.find_recipe name with
  | none => [Emission.err "recipe not found"]
  | some recipe => report_output (exec (spawn_call recipe)) quiet

/-- Byte-lexicographic comparison of character lists. Rust String < is the
lexicographic order on UTF-8 bytes, which coincides with the lexicographic
order on code points; this executable function is that order, and
string_lt_iff below identifies it with the Lean String order. -/
def ltb : List Char → List Char → Bool
  | [], [] => false
  | [], _ :: _ => true
  | _ :: _, [] => false
  | a :: as, b :: bs => if a < b then true else if b < a then false else ltb as bs

/-- The Rust comparison recipe.name < other.name used by the tree. -/
def string_lt (a b : String) : Bool := ltb a.data b.data

/-- The complementary comparison: a is less than or equal to b. -/
def string_le (a b : String) : Bool := !string_lt b a

/-- The Node and BinaryTree shape of src/tasks/mod.rs lines 36-63: each
node owns one recipe and two optional children; an absent root or child is
the leaf. -/
inductive Tree where
  | leaf : Tree
  | node (recipe : Recipe) (left : Tree) (right : Tree) : Tree
deriving DecidableEq, Repr

/-- BinaryTree::insert_node, src/tasks/mod.rs lines 70-88: a strictly
smaller name descends left, any other name descends right, and a leaf is
replaced by a fresh node. -/
def insert_node : Tree → Recipe → Tree
  | .leaf, recipe => .node recipe .leaf .leaf
  | .node a l r, recipe =>
    if string_lt recipe.name a.name then .node a (insert_node l recipe) r
    else .node a l (insert_node r recipe)

/-- BinaryTree::new, src/tasks/mod.rs lines 57-63: start from the empty
tree and insert the recipes in their stored order. -/
def BinaryTree.new (tasks : List Recipe) : Tree :=
  tasks.foldl insert_node .leaf

/-- BinaryTree::search_node, src/tasks/mod.rs lines 93-107: equal name
returns a copy of the node recipe, a smaller name recurses left, any
other name recurses right, and a leaf yields none. -/
def search_node : Tree → String → Option Recipe
  | .leaf, _ => none
  | .node a l r, name =>
    if name = a.name then some a
    else if string_lt name a.name then search_node l name
    else search_node r name

/-- BinaryTree::search, src/tasks/mod.rs lines 89-91. -/
def BinaryTree.search (t : Tree) (name : String) : Option Recipe :=
  search_node t name

/-- The predicate p holds of every recipe name stored in the tree. -/
def Tree.all (p : String → Bool) : Tree → Bool
  | .leaf => true
  | .node a l r => p a.name && Tree.all p l && Tree.all p r

/-- The search-tree ordering invariant: at every node, every name in the
left subtree is strictly below the node name and every name in the right
subtree is greater than or equal to it. -/
def isBST : Tree → Bool
  | .leaf => true
  | .node a l r =>
    Tree.all (fun n => string_lt n a.name) l &&
    Tree.all (fun n => string_le a.name n) r &&
    isBST l && isBST r

/-- A direction taken at one node while walking down the tree. -/
inductive Dir where
  | left : Dir
  | right : Dir
deriving DecidableEq, Repr

/-- The recipe stored at the end of a directed path, if the path stays
inside the tree. -/
def nodeAt : Tree → List Dir → Option Recipe
  | .leaf, _ => none
  | .node a _ _, [] => some a
  | .node _ l _, .left :: p => nodeAt l p
  | .node _ _ r, .right :: p => nodeAt r p

/-- The path along which insert_node walks and finally places a recipe:
the comparisons are exactly those of insert_node. -/
def insertPath : Tree → Recipe → List Dir
  | .leaf, _ => []
  | .node a l r, recipe =>
    if string_lt recipe.name a.name then Dir.left :: insertPath l recipe
    else Dir.right :: insertPath r recipe

/-- The payload of a std::io::Error as far as this development needs it. -/
structure IoError where
  message : String
deriving DecidableEq, Repr

/-- The payload of a toml::de::Error as far as this development needs it. -/
structure TomlDeError where
  message : String
deriving DecidableEq, Repr

/-- The RukefileError enum of src/tasks/mod.rs lines 115-119. -/
inductive RukefileError where
  | IoError (e : IoError)
  | TomlError (e : TomlDeError)
deriving DecidableEq, Repr

/-- Rukefile::new, src/tasks/mod.rs lines 122-140, with the file read
abstracted as its result and the TOML parser abstracted as a function: a
read failure becomes RukefileError::IoError, a parse failure becomes
RukefileError::TomlError, and otherwise the parsed registry is returned
whole. -/
def Rukefile.new (raw_rukefile : Except IoError String)
    (parse : String → Except TomlDeError Rukefile) :
    Except RukefileError Rukefile :=
  match raw_rukefile with
  | .error e => .error (.IoError e)
  | .ok raw =>
    match parse raw with
    | .ok rukefile => .ok rukefile
    | .error e => .error (.TomlError e)

/-- A TOML value as the persisted schema uses them: a string or an array
of strings. -/
inductive TomlVal where
  | str (s : String)
  | arr (xs : List String)
deriving DecidableEq, Repr

/-- A TOML table: an ordered list of key-value pairs. -/
abbrev TomlTable := List (String × TomlVal)

/-- Lookup of a key in a table. -/
def table_get (t : TomlTable) (k : String) : Option TomlVal :=
  (t.find? (fun kv => kv.1 == k)).map (fun kv => kv.2)

/-- Modelled from the spec: the on-disk encoding of one recipe produced
through the derived Serialize instance (src/tasks/mod.rs line 13) by
toml::to_string in Rukefile::update_rukefile (lines 142-147). The name and
command fields are emitted as strings and the arguments field is emitted
as an array when present and omitted when absent. -/
def encode_recipe (r : Recipe) : TomlTable :=
  [("name", TomlVal.str r.name), ("command", TomlVal.str r.command)] ++
    (match r.arguments with
     | some xs => [("arguments", TomlVal.arr xs)]
     | none => [])

/-- Modelled from the spec: the on-disk encoding of a registry, the tasks
array of tables written by Rukefile::update_rukefile. -/
def encode_rukefile (rf : Rukefile) : List TomlTable :=
  rf.tasks.map encode_recipe

/-- Modelled from the spec: decoding one recipe table through the derived
Deserialize instance used by toml::from_str in Rukefile::new. The name and
command string fields are required, the arguments field is optional, and
absence decodes to none while an empty array decodes to some empty list. -/
def decode_recipe (t : TomlTable) : Option Recipe :=
  match table_get t "name", table_get t "command" with
  | some (TomlVal.str n), some (TomlVal.str c) =>
    (match table_get t "arguments" with
     | none => some { name := n, command := c, arguments := none }
     | some (TomlVal.arr xs) => some { name := n, command := c, arguments := some xs }
     | some _ => none)
  | _, _ => none

/-- Modelled from the spec: decoding a tasks array of tables one by one;
any table that fails to decode fails the whole sequence. -/
def decode_tables : List TomlTable → Option (List Recipe)
  | [] => some []
  | t :: ts =>
    match decode_recipe t, decode_tables ts with
    | some r, some rs => some (r :: rs)
    | _, _ => none

/-- Modelled from the spec: decoding the whole registry; a malformed
file never yields a partial registry. -/
def decode_rukefile (ts : List TomlTable) : Option Rukefile :=
  (decode_tables ts).map (fun tasks => { tasks := tasks })

/-! Theorems. First the bridge between the executable byte-lexicographic
comparison and the Lean String order. -/

theorem ltb_iff_lex : ∀ as bs : List Char, ltb as bs = true ↔ List.Lex (· < ·) as bs
  | [], [] => by
    simp only [ltb]
    constructor
    · intro h; cases h
    · intro h; cases h
  | [], b :: bs => by
    simp only [ltb]
    exact ⟨fun _ => List.Lex.nil, fun _ => trivial⟩
  | a :: as, [] => by
    simp only [ltb]
    constructor
    · intro h; cases h
    · intro h; cases h
  | a :: as, b :: bs => by
    simp only [ltb]
    by_cases h1 : a < b
    · simp only [if_pos h1]
      exact ⟨fun _ => List.Lex.rel h1, fun _ => trivial⟩
    · simp only [if_neg h1]
      by_cases h2 : b < a
      · simp only [if_pos h2]
        constructor
        · intro h; cases h
        · intro h
          cases h with
          | cons _ => exact absurd h2 (lt_irrefl a)
          | rel h => exact absurd h h1
      · simp only [if_neg h2]
        have heq : a = b := le_antisymm (not_lt.mp h2) (not_lt.mp h1)
        subst heq
        rw [ltb_iff_lex as bs]
        constructor
        · intro h; exact List.Lex.cons h
        · intro h
          cases h with
          | cons h => exact h
          | rel h => exact absurd h h1

theorem string_lt_iff (a b : String) : string_lt a b = true ↔ a < b := by
  rw [String.lt_iff_toList_lt]
  exact ltb_iff_lex a.data b.data

theorem string_lt_eq_decide (a b : String) : string_lt a b = decide (a < b) := by
  by_cases h : a < b
  · rw [decide_eq_true h]
    exact (string_lt_iff a b).mpr h
  · rw [decide_eq_false h]
    exact Bool.eq_false_iff.mpr (fun hc => h ((string_lt_iff a b).mp hc))

theorem string_le_iff (a b : String) : string_le a b = true ↔ a ≤ b := by
  rw [string_le, Bool.not_eq_true']
  constructor
  · intro h
    refine not_lt.mp (fun hc => ?_)
    rw [← string_lt_iff b a] at hc
    rw [h] at hc
    cases hc
  · intro h
    rw [← Bool.not_eq_true, string_lt_iff b a]
    exact not_lt.mpr h

theorem string_le_eq_decide (a b : String) : string_le a b = decide (a ≤ b) := by
  by_cases h : a ≤ b
  · rw [decide_eq_true h]
    exact (string_le_iff a b).mpr h
  · rw [decide_eq_false h]
    exact Bool.eq_false_iff.mpr (fun hc => h ((string_le_iff a b).mp hc))


/-! Preservation of the ordering invariant. -/

theorem tree_all_insert (p : String → Bool) (t : Tree) (r : Recipe)
    (ht : Tree.all p t = true) (hr : p r.name = true) :
    Tree.all p (insert_node t r) = true := by
  induction t with
  | leaf => simp [insert_node, Tree.all, hr]
  | node a l rt ihl ihr =>
    simp only [Tree.all, Bool.and_eq_true] at ht
    obtain ⟨⟨ha, hl⟩, hrt⟩ := ht
    by_cases h : string_lt r.name a.name = true
    · simp [insert_node, h, Tree.all, ha, ihl hl, hrt]
    · simp [insert_node, h, Tree.all, ha, hl, ihr hrt]

theorem isBST_insert (t : Tree) (r : Recipe) (h : isBST t = true) :
    isBST (insert_node t r) = true := by
  induction t with
  | leaf => simp [insert_node, isBST, Tree.all]
  | node a l rt ihl ihr =>
    simp only [isBST, Bool.and_eq_true] at h
    obtain ⟨⟨⟨hall, halr⟩, hbl⟩, hbr⟩ := h
    by_cases hlt : string_lt r.name a.name = true
    · simp only [insert_node, hlt, if_true]
      simp only [isBST, Bool.and_eq_true]
      exact ⟨⟨⟨tree_all_insert _ l r hall hlt, halr⟩, ihl hbl⟩, hbr⟩
    · have hle : string_le a.name r.name = true := by
        rw [string_le_iff]
        refine not_lt.mp (fun hc => ?_)
        rw [← string_lt_iff] at hc
        exact hlt hc
      simp only [insert_node, hlt, if_false]
      simp only [isBST, Bool.and_eq_true]
      exact ⟨⟨⟨hall, tree_all_insert _ rt r halr hle⟩, hbl⟩, ihr hbr⟩

theorem isBST_foldl (tasks : List Recipe) :
    ∀ t, isBST t = true → isBST (tasks.foldl insert_node t) = true := by
  induction tasks with
  | nil => exact fun t h => h
  | cons r rest ih => exact fun t h => ih _ (isBST_insert t r h)

/-! How search interacts with insertion. -/

theorem search_insert_node (t : Tree) (r : Recipe) (name : String) :
    search_node (insert_node t r) name =
      match search_node t name with
      | some x => some x
      | none => if name = r.name then some r else none := by
  induction t with
  | leaf =>
    simp only [search_node, insert_node]
    by_cases h1 : name = r.name
    · simp [search_node, h1]
    · simp only [search_node, h1, if_false]
      split <;> rfl
  | node a l rt ihl ihr =>
    by_cases hlt : string_lt r.name a.name = true
    · simp only [insert_node, hlt, if_true]
      by_cases h1 : name = a.name
      · simp [search_node, h1]
      · by_cases h2 : string_lt name a.name = true
        · simp [search_node, h1, h2, ihl]
        · have hne : name ≠ r.name := by
            intro he
            rw [string_lt_iff] at hlt
            rw [← he] at hlt
            rw [← string_lt_iff] at hlt
            exact h2 hlt
          simp only [search_node, h1, h2, if_false]
          cases hs : search_node rt name with
          | some x => simp
          | none => simp [hne]
    · simp only [insert_node, hlt, if_false]
      by_cases h1 : name = a.name
      · simp [search_node, h1]
      · by_cases h2 : string_lt name a.name = true
        · have hne : name ≠ r.name := by
            intro he
            apply hlt
            rw [← he]
            exact h2
          simp only [search_node, h1, h2, if_true]
          cases hs : search_node l name with
          | some x => simp
          | none => simp [hne]
        · simp [search_node, h1, h2, ihr]

theorem search_insert_isSome (t : Tree) (r : Recipe) (name : String) :
    (search_node (insert_node t r) name).isSome = true ↔
      (search_node t name).isSome = true ∨ name = r.name := by
  rw [search_insert_node]
  cases hs : search_node t name with
  | some x => simp
  | none =>
    simp only [Option.isSome_none, Bool.false_eq_true, false_or]
    by_cases h1 : name = r.name <;> simp [h1]

theorem search_foldl_isSome (tasks : List Recipe) :
    ∀ (t : Tree) (name : String),
      (search_node (tasks.foldl insert_node t) name).isSome = true ↔
        (search_node t name).isSome = true ∨ ∃ r ∈ tasks, r.name = name := by
  induction tasks with
  | nil => simp
  | cons r rest ih =>
    intro t name
    rw [List.foldl_cons, ih, search_insert_isSome]
    constructor
    · rintro (⟨h | h⟩ | h)
      · exact Or.inl h
      · exact Or.inr ⟨r, List.mem_cons_self r rest, h.symm⟩
      · obtain ⟨x, hx, hn⟩ := h
        exact Or.inr ⟨x, List.mem_cons_of_mem r hx, hn⟩
    · rintro (h | ⟨x, hx, hn⟩)
      · exact Or.inl (Or.inl h)
      · rcases List.mem_cons.mp hx with he | hm
        · subst he
          exact Or.inl (Or.inr hn.symm)
        · exact Or.inr ⟨x, hm, hn⟩

/-! Where a later duplicate lands relative to an earlier equal name. -/

theorem nodeAt_all (p : String → Bool) :
    ∀ (path : List Dir) (t : Tree) (x : Recipe),
      Tree.all p t = true → nodeAt t path = some x → p x.name = true := by
  intro path
  induction path with
  | nil =>
    intro t x hall hat
    cases t with
    | leaf => cases hat
    | node a l r =>
      simp only [nodeAt, Option.some_inj] at hat
      simp only [Tree.all, Bool.and_eq_true] at hall
      exact hat ▸ hall.1.1
  | cons d pp ih =>
    intro t x hall hat
    cases t with
    | leaf => cases hat
    | node a l r =>
      simp only [Tree.all, Bool.and_eq_true] at hall
      cases d with
      | left =>
        simp only [nodeAt] at hat
        exact ih l x hall.1.2 hat
      | right =>
        simp only [nodeAt] at hat
        exact ih r x hall.2 hat

theorem insertPath_extends (r : Recipe) :
    ∀ (p : List Dir) (t : Tree) (x : Recipe),
      isBST t = true → nodeAt t p = some x → x.name = r.name →
      ∃ rest, insertPath t r = p ++ Dir.right :: rest := by
  intro p
  induction p with
  | nil =>
    intro t x hbst hat hname
    cases t with
    | leaf => cases hat
    | node a l rt =>
      simp only [nodeAt, Option.some_inj] at hat
      subst hat
      have hnl : string_lt r.name a.name = false := by
        rw [hname]
        rw [Bool.eq_false_iff]
        intro hc
        rw [string_lt_iff] at hc
        exact lt_irrefl _ hc
      refine ⟨insertPath rt r, ?_⟩
      simp [insertPath, hnl]
  | cons d pp ih =>
    intro t x hbst hat hname
    cases t with
    | leaf => cases hat
    | node a l rt =>
      simp only [isBST, Bool.and_eq_true] at hbst
      obtain ⟨⟨⟨hall, halr⟩, hbl⟩, hbr⟩ := hbst
      cases d with
      | left =>
        simp only [nodeAt] at hat
        have hx : string_lt x.name a.name = true := nodeAt_all _ pp l x hall hat
        have hr : string_lt r.name a.name = true := by
          rw [← hname]
          exact hx
        obtain ⟨rest, hrest⟩ := ih l x hbl hat hname
        refine ⟨rest, ?_⟩
        simp [insertPath, hr, hrest]
      | right =>
        simp only [nodeAt] at hat
        have hx : string_le a.name x.name = true := nodeAt_all _ pp rt x halr hat
        have hr : string_lt r.name a.name = false := by
          rw [Bool.eq_false_iff]
          intro hc
          rw [string_lt_iff] at hc
          rw [string_le_iff, hname] at hx
          exact absurd hc (not_lt.mpr hx)
        obtain ⟨rest, hrest⟩ := ih rt x hbr hat hname
        refine ⟨rest, ?_⟩
        simp [insertPath, hr, hrest]

theorem nodeAt_insertPath (t : Tree) (r : Recipe) :
    nodeAt (insert_node t r) (insertPath t r) = some r := by
  induction t with
  | leaf => rfl
  | node a l rt ihl ihr =>
    by_cases h : string_lt r.name a.name = true
    · simp [insert_node, insertPath, h, nodeAt, ihl]
    · simp [insert_node, insertPath, h, nodeAt, ihr]

theorem search_stable_under_insert (t : Tree) (r : Recipe) (name : String)
    (y : Recipe) (h : search_node t name = some y) :
    search_node (insert_node t r) name = some y := by
  rw [search_insert_node, h]

/-! Tokenisation facts about split on the single space character. -/

theorem split_char_ne_nil (sep : Char) : ∀ cs : List Char, split_char sep cs ≠ []
  | [] => by simp [split_char]
  | c :: cs => by
    simp only [split_char]
    by_cases h : c = sep
    · simp [h]
    · simp only [h, if_false]
      cases hs : split_char sep cs with
      | nil => simp
      | cons t ts => simp

theorem split_double_space (sep : Char) :
    ∀ (s1 s2 : List Char), [] ∈ (split_char sep (s1 ++ sep :: sep :: s2)).drop 1 := by
  intro s1
  induction s1 with
  | nil =>
    intro s2
    simp [split_char]
  | cons c s1 ih =>
    intro s2
    simp only [List.cons_append, split_char]
    by_cases h : c = sep
    · simp only [h, if_true, List.drop_succ_cons, List.drop_zero]
      exact List.mem_of_mem_drop (ih s2)
    · simp only [h, if_false]
      cases hs : split_char sep (s1 ++ sep :: sep :: s2) with
      | nil => exact absurd hs (split_char_ne_nil _ _)
      | cons t ts =>
        have hm := ih s2
        rw [hs] at hm
        simpa using hm

theorem split_no_sep (sep : Char) : ∀ cs : List Char, sep ∉ cs → split_char sep cs = [cs] := by
  intro cs
  induction cs with
  | nil => intro _; rfl
  | cons c cs ih =>
    intro h
    have hc : ¬ c = sep := fun he => h (he ▸ List.mem_cons_self c cs)
    simp only [split_char, hc, if_false]
    rw [ih (fun hm => h (List.mem_cons_of_mem c hm))]

theorem compose_contains_empty (recipe : Recipe) (s1 s2 : List Char)
    (h : recipe.command.data = s1 ++ ' ' :: ' ' :: s2) :
    "" ∈ compose_arguments recipe := by
  have hmem : [] ∈ (split_char ' ' recipe.command.data).drop 1 := by
    rw [h]
    exact split_double_space ' ' s1 s2
  have hmem2 : "" ∈ (splitCommand recipe.command).drop 1 := by
    rw [splitCommand, ← List.map_drop]
    exact List.mem_map.mpr ⟨[], hmem, rfl⟩
  rw [compose_arguments]
  cases recipe.arguments with
  | none => exact hmem2
  | some args => exact List.mem_append_right args hmem2

/-! Round-trip of the persisted format. -/

theorem decode_encode_recipe (r : Recipe) : decode_recipe (encode_recipe r) = some r := by
  cases r with
  | mk n c args => cases args <;> rfl

/-- The stale reporting variant of src/tasks.rs lines 64-70 satisfies the
specified reporting policy: stdout exactly on success with quiet false, no
stdout emission on a quiet success, stderr on failure regardless of quiet.
The current tasks/mod.rs variant does not; see the C2 record. -/
theorem report_output_legacy_matches_policy (output : ChildOutput) (quiet : Bool) :
    (output.success = true ∧ quiet = false →
      report_output_legacy output quiet = [Emission.out output.stdout]) ∧
    (output.success = true ∧ quiet = true →
      ∀ s, Emission.out s ∉ report_output_legacy output quiet) ∧
    (output.success = false →
      report_output_legacy output quiet = [Emission.err output.stderr]) := by
  cases hs : output.success <;> cases hq : quiet <;>
    simp [report_output_legacy, hs, hq]

/-! The claims. -/

/-- C1, counterexample: with command "cmd a b" and arguments ["c", "d"]
the composed vector is ["c", "d", "a", "b"], not the claimed
["a", "b", "c", "d"]: the code pushes the inline positional tokens onto
the end of the extra arguments, not the other way around. -/
theorem rufile_c1_counterexample :
    compose_arguments ⟨"task", "cmd a b", some ["c", "d"]⟩ = ["c", "d", "a", "b"] ∧
    compose_arguments ⟨"task", "cmd a b", some ["c", "d"]⟩ ≠ ["a", "b", "c", "d"] := by
  decide

/-- C1, amended: when the command splits into tokens t0 :: ts, the final
argument vector is recipe.arguments followed by ts when arguments is
present, and exactly ts when it is absent. -/
theorem rufile_c1_amended (recipe : Recipe) (t0 : String) (ts : List String)
    (h : splitCommand recipe.command = t0 :: ts) :
    (∀ bs, recipe.arguments = some bs → compose_arguments recipe = bs ++ ts) ∧
    (recipe.arguments = none → compose_arguments recipe = ts) := by
  constructor
  · intro bs hbs
    rw [compose_arguments]
    simp only [h, hbs]
    rfl
  · intro hnone
    rw [compose_arguments]
    simp only [h, hnone]
    rfl

/-- C1, witness: the amended statement evaluated on a concrete recipe
with absent arguments. -/
theorem rufile_c1_witness :
    compose_arguments ⟨"task2", "cmd a b", none⟩ = ["a", "b"] :=
  (rufile_c1_amended ⟨"task2", "cmd a b", none⟩ "cmd" ["a", "b"] (by decide)).2 rfl

/-- C2, evaluation at the failing input: a recipe that succeeds with
quiet true still emits the captured stdout (and also emits the captured
stderr), because src/tasks/mod.rs lines 182-190 print stderr whenever NOT
(success and not quiet) and then print stdout unconditionally. The claim
says a quiet success emits no stdout at all and stderr only on failure. -/
theorem rufile_c2_eval :
    run_recipe (fun _ => ⟨true, "hello", ""⟩) ⟨[⟨"greet", "echo hello", none⟩]⟩ "greet" true
      = [Emission.err "", Emission.out "hello"] := by
  decide

/-- C3: for a name matching no recipe of the registry, find_recipe is
none and run_recipe reports the miss on the error channel and returns,
rather than aborting. -/
theorem rufile_c3 (rf : Rukefile) (name : String) (exec : SpawnCall → ChildOutput)
    (quiet : Bool) (h : ∀ r ∈ rf.tasks, r.name ≠ name) :
    rf.find_recipe name = none ∧
    run_recipe exec rf name quiet = [Emission.err "recipe not found"] := by
  have hf : rf.find_recipe name = none := by
    rw [Rukefile.find_recipe]
    apply List.find?_eq_none.mpr
    intro x hx
    simpa using h x hx
  exact ⟨hf, by rw [run_recipe, hf]⟩

/-- C3, witness: the missing-lookup behaviour on a concrete registry. -/
theorem rufile_c3_witness :
    Rukefile.find_recipe ⟨[⟨"build", "make", none⟩]⟩ "nonexistent" = none ∧
    run_recipe (fun _ => ⟨true, "", ""⟩) ⟨[⟨"build", "make", none⟩]⟩ "nonexistent" false
      = [Emission.err "recipe not found"] :=
  rufile_c3 _ _ _ _ (by decide)

/-- C4: encoding any registry and decoding it back yields the same
registry, recipe for recipe and field for field; a recipe with an empty
arguments list and one with absent arguments have distinguishable
encodings, each decoding back to its own in-memory state. -/
theorem rufile_c4 :
    (∀ rf : Rukefile, decode_rukefile (encode_rukefile rf) = some rf) ∧
    (∀ n c : String,
      encode_recipe ⟨n, c, some []⟩ ≠ encode_recipe ⟨n, c, none⟩ ∧
      decode_recipe (encode_recipe ⟨n, c, some []⟩) = some ⟨n, c, some []⟩ ∧
      decode_recipe (encode_recipe ⟨n, c, none⟩) = some ⟨n, c, none⟩) := by
  constructor
  · intro rf
    cases rf with
    | mk tasks =>
      rw [decode_rukefile, encode_rukefile]
      have hdec : decode_tables (tasks.map encode_recipe) = some tasks := by
        induction tasks with
        | nil => rfl
        | cons r rest ih =>
          rw [List.map_cons, decode_tables, decode_encode_recipe r, ih]
      rw [hdec]
      rfl
  · intro n c
    refine ⟨?_, decode_encode_recipe ⟨n, c, some []⟩, decode_encode_recipe ⟨n, c, none⟩⟩
    intro he
    have hlen := congrArg List.length he
    simp [encode_recipe] at hlen

/-- C4, witness: the round trip and the distinguishability evaluated on a
concrete registry. -/
theorem rufile_c4_witness :
    decode_rukefile (encode_rukefile ⟨[⟨"x", "echo", some []⟩]⟩)
        = some ⟨[⟨"x", "echo", some []⟩]⟩ ∧
    encode_recipe ⟨"x", "echo", some []⟩ ≠ encode_recipe ⟨"x", "echo", none⟩ :=
  ⟨rufile_c4.1 _, (rufile_c4.2 "x" "echo").1⟩

/-- C5: every tree built by inserting any sequence of recipes into the
empty tree satisfies the ordering invariant (left subtree strictly below
the node name, right subtree greater or equal), and a single insert
preserves the invariant on any tree that has it. -/
theorem rufile_c5 :
    (∀ tasks : List Recipe, isBST (BinaryTree.new tasks) = true) ∧
    (∀ (t : Tree) (r : Recipe), isBST t = true → isBST (insert_node t r) = true) :=
  ⟨fun tasks => isBST_foldl tasks Tree.leaf rfl, isBST_insert⟩

/-- C5, witness: the invariant evaluated on a concrete build and a
concrete further insert. -/
theorem rufile_c5_witness :
    isBST (insert_node (BinaryTree.new [⟨"b", "x", none⟩, ⟨"a", "y", none⟩])
      ⟨"c", "z", none⟩) = true :=
  rufile_c5.2 _ ⟨"c", "z", none⟩ (by decide)

/-- C6: on the tree built from any sequence of recipes, search finds some
recipe exactly for the names present in the sequence and none for every
absent name. -/
theorem rufile_c6 (tasks : List Recipe) (name : String) :
    (BinaryTree.search (BinaryTree.new tasks) name).isSome = true ↔
      ∃ r ∈ tasks, r.name = name := by
  rw [BinaryTree.search, BinaryTree.new, search_foldl_isSome]
  simp [search_node]

/-- C6, witness: a present name is found and an absent name is not, on a
concrete tree. -/
theorem rufile_c6_witness :
    (BinaryTree.search (BinaryTree.new [⟨"a", "cmd", none⟩]) "a").isSome = true ∧
    ¬ (BinaryTree.search (BinaryTree.new [⟨"a", "cmd", none⟩]) "b").isSome = true :=
  ⟨(rufile_c6 _ _).mpr ⟨⟨"a", "cmd", none⟩, by decide, rfl⟩,
   fun h => absurd ((rufile_c6 _ _).mp h) (by decide)⟩

/-- C7, counterexample: after inserting two recipes with the equal name
"b", search returns the first-inserted entry, not the last-inserted one
claimed by the tie-break description. -/
theorem rufile_c7_counterexample :
    BinaryTree.search (BinaryTree.new [⟨"b", "first", none⟩, ⟨"b", "second", none⟩]) "b"
        = some ⟨"b", "first", none⟩ ∧
    BinaryTree.search (BinaryTree.new [⟨"b", "first", none⟩, ⟨"b", "second", none⟩]) "b"
        ≠ some ⟨"b", "second", none⟩ := by
  decide

/-- C7, amended: a later insertion with an equal name lands strictly
inside the right subtree of every earlier equal-named node (the insert
path extends that node path by a right step), the inserted recipe sits at
the end of the insert path, and search keeps returning the entry it
already returned before the duplicate insertion - the earliest-inserted
equal name, encountered first on the search path. -/
theorem rufile_c7_amended (t : Tree) (r : Recipe) (p : List Dir) (x : Recipe)
    (hbst : isBST t = true) (hat : nodeAt t p = some x) (hname : x.name = r.name) :
    (insertPath t r).take (p.length + 1) = p ++ [Dir.right] ∧
    nodeAt (insert_node t r) (insertPath t r) = some r ∧
    (∀ y, search_node t r.name = some y →
      search_node (insert_node t r) r.name = some y) := by
  obtain ⟨rest, hrest⟩ := insertPath_extends r p t x hbst hat hname
  refine ⟨?_, nodeAt_insertPath t r, fun y hy => search_stable_under_insert t r _ y hy⟩
  rw [hrest, List.take_append]
  rfl

/-- C7, witness: the amended statement evaluated on a concrete duplicate
insertion. -/
theorem rufile_c7_witness :
    (insertPath (BinaryTree.new [⟨"b", "first", none⟩]) ⟨"b", "second", none⟩).take 1
        = [Dir.right] ∧
    nodeAt (insert_node (BinaryTree.new [⟨"b", "first", none⟩]) ⟨"b", "second", none⟩)
        (insertPath (BinaryTree.new [⟨"b", "first", none⟩]) ⟨"b", "second", none⟩)
      = some ⟨"b", "second", none⟩ ∧
    (∀ y, search_node (BinaryTree.new [⟨"b", "first", none⟩]) "b" = some y →
      search_node (insert_node (BinaryTree.new [⟨"b", "first", none⟩]) ⟨"b", "second", none⟩)
        "b" = some y) :=
  rufile_c7_amended _ ⟨"b", "second", none⟩ [] ⟨"b", "first", none⟩
    (by decide) (by decide) rfl

/-- C8: loading yields RukefileError::IoError exactly when the file read
fails, RukefileError::TomlError exactly when the read succeeds and the
parse fails, and the full parsed registry exactly when both succeed, so a
malformed file never yields a partial registry. -/
theorem rufile_c8 (raw : Except IoError String)
    (parse : String → Except TomlDeError Rukefile) :
    (∀ e, Rukefile.new raw parse = .error (.IoError e) ↔ raw = .error e) ∧
    (∀ s, raw = .ok s →
      ((∀ e, Rukefile.new raw parse = .error (.TomlError e) ↔ parse s = .error e) ∧
       (∀ rf, Rukefile.new raw parse = .ok rf ↔ parse s = .ok rf))) := by
  constructor
  · intro e
    cases raw with
    | error e2 => simp [Rukefile.new]
    | ok s =>
      simp only [Rukefile.new]
      cases hp : parse s with
      | ok rf => simp
      | error e2 => simp
  · intro s hs
    subst hs
    constructor
    · intro e
      simp only [Rukefile.new]
      cases hp : parse s with
      | ok rf => simp
      | error e2 => simp
    · intro rf
      simp only [Rukefile.new]
      cases hp : parse s with
      | ok rf2 => simp
      | error e2 => simp

/-- C8, witness: a failing parse is a format error and a failing read is
an input error, on concrete inputs. -/
theorem rufile_c8_witness :
    Rukefile.new (Except.ok "bad") (fun _ => Except.error ⟨"badtoml"⟩)
        = Except.error (RukefileError.TomlError ⟨"badtoml"⟩) ∧
    Rukefile.new (Except.error ⟨"missing"⟩) (fun _ => Except.ok ⟨[]⟩)
        = Except.error (RukefileError.IoError ⟨"missing"⟩) :=
  ⟨(((rufile_c8 (Except.ok "bad") (fun _ => Except.error ⟨"badtoml"⟩)).2 "bad" rfl).1
      ⟨"badtoml"⟩).mpr rfl,
   ((rufile_c8 (Except.error ⟨"missing"⟩) (fun _ => Except.ok ⟨[]⟩)).1
      ⟨"missing"⟩).mpr rfl⟩

/-- C9: add_task appends exactly one recipe with the given name, the
given command and absent arguments, leaving all earlier entries
unchanged, and after adding ("x", "echo hi") to the empty registry,
find_recipe "x" returns that recipe. -/
theorem rufile_c9 :
    (∀ (rf : Rukefile) (name command : String),
      (rf.add_task name command).tasks = rf.tasks ++ [⟨name, command, none⟩]) ∧
    Rukefile.find_recipe (Rukefile.add_task ⟨[]⟩ "x" "echo hi") "x"
      = some ⟨"x", "echo hi", none⟩ :=
  ⟨fun _ _ _ => rfl, by decide⟩

/-- C10: the command is split on the single space character only: a
command containing two consecutive spaces composes an empty-string
argument, a command without spaces is one single token whatever other
characters (tabs included) it contains, the empty command splits into one
empty token, and that token is used as the program name. -/
theorem rufile_c10 :
    (∀ (recipe : Recipe) (s1 s2 : List Char),
      recipe.command.data = s1 ++ ' ' :: ' ' :: s2 → "" ∈ compose_arguments recipe) ∧
    (∀ cs : List Char, ' ' ∉ cs → split_char ' ' cs = [cs]) ∧
    splitCommand "" = [""] ∧
    (spawn_call ⟨"task", "", none⟩).program = "" :=
  ⟨compose_contains_empty, split_no_sep ' ', rfl, rfl⟩

/-- C10, witness: a double space composes an empty argument and a tab
character (code 9) does not separate tokens, on concrete inputs. -/
theorem rufile_c10_witness :
    "" ∈ compose_arguments ⟨"task", "a  b", none⟩ ∧
    split_char ' ' ['a', Char.ofNat 9, 'b'] = [['a', Char.ofNat 9, 'b']] :=
  ⟨rufile_c10.1 ⟨"task", "a  b", none⟩ ['a'] ['b'] (by decide),
   rufile_c10.2.1 ['a', Char.ofNat 9, 'b'] (by decide)⟩

end Rufile
